import Mathlib

/-!
Shallow embedding of the obsidian-search-tags plugin core (src/main.ts):
the tag extractor (`CachedStruct.setFileMap`), the document index
(`fileMap` plus `deleteFileMap` / `toSelections`), the date comparator
(`compare`) and the query engine (`SelectorModal.getSuggestions`).

JavaScript strings are modelled as `List Char` (one entry per UTF-16 unit
of the realistic inputs), wrapped into Lean `String` at structure
boundaries.  Regular expressions are unfolded into explicit executable
scanners that follow the backtracking behaviour of the two literal
patterns in the source (`tagRegex` and `dateRegex`).
-/

set_option maxHeartbeats 1000000

/-! ### Character classes of the source regexes

`tagRegex` is the pattern "(?<=[\s>]|^)#(\w*[A-Za-z_ slash dash]+\w*)" with
flags ig.  `\w` is `[A-Za-z0-9_]`; the bracket class adds slash and dash but
drops the digits.  `\s` is modelled by the ASCII whitespace characters (the
unicode space characters never occur in the inputs considered here). -/

def isWordChar (c : Char) : Bool := c.isAlpha || c.isDigit || c = '_'

def isLChar (c : Char) : Bool := c.isAlpha || c = '_' || c = '/' || c = '-'

def isWsChar (c : Char) : Bool :=
  c = ' ' || c = '\t' || c = '\n' || c = '\x0b' || c = '\x0c' || c = '\r'

/-- Lookbehind `(?<=[\s>]|^)`: `none` stands for the start of the line. -/
def prevOk : Option Char → Bool
  | none => true
  | some c => isWsChar c || c = '>'

/-- Length of the maximal run of `\w` characters at the head. -/
def wordRun : List Char → Nat
  | [] => 0
  | c :: cs => if isWordChar c then wordRun cs + 1 else 0

/-- Length of the maximal run of bracket-class (`isLChar`) characters at the head. -/
def lRun : List Char → Nat
  | [] => 0
  | c :: cs => if isLChar c then lRun cs + 1 else 0

/-- Number of characters matched by the group "\w* bracket-class+ \w*" at the
head of `s`, following the JavaScript engine's greedy/backtracking order:
`\w*` first takes the maximal word run `a`; if the next character is in the
bracket class the match extends greedily through it and a final word run,
otherwise `\w*` backtracks until it exposes a bracket-class character
(a letter or underscore inside the word run), which caps the match at `a`. -/
def bodyLen (s : List Char) : Option Nat :=
  let a := wordRun s
  let rest := s.drop a
  match rest.head? with
  | some c =>
    if isLChar c then
      let b := lRun rest
      some (a + b + wordRun (rest.drop b))
    else if (s.take a).any (fun x => x.isAlpha || x = '_') then some a
    else none
  | none => if (s.take a).any (fun x => x.isAlpha || x = '_') then some a else none

/-- Model of `paragraph.search(tagRegex)`: index of the leftmost match start,
`none` for the JavaScript result `-1`. -/
def searchFrom (prev : Option Char) : List Char → Nat → Option Nat
  | [], _ => none
  | c :: cs, i =>
    if prevOk prev && c = '#' && (bodyLen cs).isSome then some i
    else searchFrom (some c) cs (i + 1)

def searchTag (para : List Char) : Option Nat := searchFrom none para 0

/-- Model of `paragraph.matchAll(tagRegex)`, full match texts in order.  After each
match the scan resumes at the match end; the lookbehind then sees the last
matched character.  The first argument is recursion fuel: every step
consumes at least one character, so fuel equal to the remaining length
(as supplied by `matchAllTag`) never runs out, and the recursion is
structural so that the scanner evaluates by kernel reduction. -/
def matchAllGo : Nat → Option Char → List Char → List (List Char)
  | 0, _, _ => []
  | fuel + 1, prev, s =>
    match s with
    | [] => []
    | c :: cs =>
      if prevOk prev && c = '#' then
        match bodyLen cs with
        | some n =>
          ('#' :: cs.take n) ::
            matchAllGo fuel (some (('#' :: cs.take n).getLastD '#')) (cs.drop n)
        | none => matchAllGo fuel (some c) cs
      else matchAllGo fuel (some c) cs

def matchAllTag (para : List Char) : List (List Char) :=
  matchAllGo para.length none para

/-! ### JavaScript string helpers on `List Char` -/

/-- Model of `String.prototype.split(sep)` for a one-character separator. -/
def splitOnCh (sep : Char) : List Char → List (List Char)
  | [] => [[]]
  | c :: cs =>
    match splitOnCh sep cs with
    | h :: t => if c = sep then [] :: h :: t else (c :: h) :: t
    | [] => [[]]

/-- Model of `Array.prototype.join()` (comma separator). -/
def joinComma : List (List Char) → List Char
  | [] => []
  | [x] => x
  | x :: xs => x ++ ',' :: joinComma xs

/-- Model of `String.prototype.replace("/", ",")`: only the first occurrence. -/
def replFirstSlash : List Char → List Char
  | [] => []
  | c :: cs => if c = '/' then ',' :: cs else c :: replFirstSlash cs

/-- Is `p` a leading segment of `l`? (JavaScript `startsWith`.) -/
def charsLeadWith : List Char → List Char → Bool
  | [], _ => true
  | _ :: _, [] => false
  | p :: ps, c :: cs => p = c && charsLeadWith ps cs

def jsStartsWith (s pat : String) : Bool := charsLeadWith pat.toList s.toList

/-- Does `p` occur as a contiguous segment of `l`? (JavaScript `includes`,
which Obsidian exposes as `String.contains`.) -/
def charsHasSeg (p : List Char) : List Char → Bool
  | [] => charsLeadWith p []
  | c :: cs => charsLeadWith p (c :: cs) || charsHasSeg p cs

def strContains (hay pat : String) : Bool := charsHasSeg pat.toList hay.toList

/-- Model of `data.replace(/[\r\n]/gm, '  ')`: every CR or LF becomes two spaces. -/
def flattenNl : List Char → List Char
  | [] => []
  | c :: cs =>
    if c = '\r' || c = '\n' then ' ' :: ' ' :: flattenNl cs else c :: flattenNl cs

/-- Model of `String.prototype.substring(a, b)`: clamp both arguments into
`[0, length]`, swap if needed, then slice. -/
def jsSubstringC (s : List Char) (a b : Int) : List Char :=
  let n : Int := s.length
  let a' := min (max a 0) n
  let b' := min (max b 0) n
  ((s.take (max a' b').toNat).drop (min a' b').toNat)

/-- Sum of the line lengths, as accumulated by the `offset` variable of
`setFileMap` (the removed newlines are not counted). -/
def sumLens (lines : List (List Char)) : Nat := (lines.map List.length).sum

/-! ### The date regex

`dateRegex = /date: \d{4}\-(0?[1-9]|1[012])\-(0?[1-9]|[12][0-9]|3[01])*/ig`.
The day alternation is starred, so the match can end right after the second
dash.  `data.match(...)?.first()?.substring(6)` keeps the first match and
drops the leading `date: `. -/

def isD19 (c : Char) : Bool := '1' ≤ c && c ≤ '9'

/-- Month alternation `(0?[1-9]|1[012])` followed by the literal `-`,
in the engine's backtracking order; result counts the dash. -/
def monthDash (s : List Char) : Option Nat :=
  match s with
  | c0 :: c1 :: rest =>
    if c0 = '0' && isD19 c1 && (rest.head? = some '-') then some 3
    else if isD19 c0 && c1 = '-' then some 2
    else if c0 = '1' && (c1 = '0' || c1 = '1' || c1 = '2') && (rest.head? = some '-') then some 3
    else none
  | _ => none

/-- Starred day alternation `(0?[1-9]|[12][0-9]|3[01])*`: each greedy
iteration takes `0` plus a nonzero digit, else a single nonzero digit
(the remaining alternatives are shadowed); a lone `0` stops the star. -/
def dayStar : List Char → Nat
  | '0' :: d :: rest => if isD19 d then 2 + dayStar rest else 0
  | d :: rest => if isD19 d then 1 + dayStar rest else 0
  | [] => 0

/-- Length of a `dateRegex` match starting at the head of `s`
(`date: ` case-insensitively, four digits, dash, month, dash, day star). -/
def dateMatchLen (s : List Char) : Option Nat :=
  if (s.take 6).map Char.toLower = ['d', 'a', 't', 'e', ':', ' '] then
    let r1 := s.drop 6
    if (r1.take 4).all Char.isDigit ∧ (r1.take 4).length = 4 then
      match (r1.drop 4).head? with
      | some '-' =>
        let r2 := r1.drop 5
        match monthDash r2 with
        | some m => some (6 + 4 + 1 + m + dayStar (r2.drop m))
        | none => none
      | _ => none
    else none
  else none

/-- Text of the first `dateRegex` match in the document, if any. -/
def firstDateMatch : List Char → Option (List Char)
  | [] => none
  | c :: cs =>
    match dateMatchLen (c :: cs) with
    | some n => some ((c :: cs).take n)
    | none => firstDateMatch cs

/-- Model of `data.match(dateRegex)?.first()?.substring(6)`. -/
def extractDate (data : String) : Option String :=
  (firstDateMatch data.toList).map (fun m => String.mk (m.drop 6))

/-! ### The data model (`Selection` and `SELECTION_KIND`)

The `file : TFile` handle of the source carries the same identity as
`path` and is dropped. -/

def KO : String := "orphan"
def KM : String := "metatag"
def KC : String := "content"

structure Selection where
  hasHeader : Bool
  date : Option String
  kind : String
  cursor : Nat
  path : String
  description : String
  tags : List String
deriving DecidableEq

/-! ### `Array.prototype.sort` and the dedupe filter

`tags.sort()` (default string comparator) is modelled by insertion sort
with `a <= b`; `filter((elem, index, self) => index === self.indexOf(elem))`
keeps the first occurrence of each element. -/

/-- Lexicographic strict comparison of JavaScript strings (`a < b`),
code unit by code unit. -/
def charsLt : List Char → List Char → Bool
  | [], [] => false
  | [], _ :: _ => true
  | _ :: _, [] => false
  | a :: as, b :: bs => if a < b then true else if b < a then false else charsLt as bs

/-- Model of `a <= b` on JavaScript strings. -/
def jsStrLe (a b : String) : Bool := !charsLt b.toList a.toList

def ordIns (le : Selection → Selection → Bool) (x : Selection) : List Selection → List Selection
  | [] => [x]
  | b :: l => if le x b then x :: b :: l else b :: ordIns le x l

def insSort (le : Selection → Selection → Bool) : List Selection → List Selection
  | [] => []
  | x :: l => ordIns le x (insSort le l)

def ordInsStr (x : String) : List String → List String
  | [] => [x]
  | b :: l => if jsStrLe x b then x :: b :: l else b :: ordInsStr x l

def jsSortStr : List String → List String
  | [] => []
  | x :: l => ordInsStr x (jsSortStr l)

def dedupeAux (seen : List String) : List String → List String
  | [] => []
  | x :: xs => if x ∈ seen then dedupeAux seen xs else x :: dedupeAux (x :: seen) xs

def jsDedupe (l : List String) : List String := dedupeAux [] l

def dedupSort (l : List String) : List String := jsDedupe (jsSortStr l)

/-! ### The tag extractor (`CachedStruct.setFileMap`) -/

/-- The slice of Obsidian's `CachedMetadata` that `setFileMap` reads:
`frontmatterTags = some r` models `cache.frontmatter != null` together
with `parseFrontMatterTags(cache.frontmatter) = r` (the parser is the
document store's, so its result is an input here); `hasTags` models
`cache.tags != null`. -/
structure CacheModel where
  frontmatterTags : Option (Option (List String))
  hasTags : Bool
deriving DecidableEq

/-- Model of `"#" + pathSpl[pathSpl.length-2]` when `file.path.split("/")` has more
than one component. -/
def pathTag (path : String) : Option String :=
  let spl := splitOnCh '/' path.toList
  if h : spl.length > 1 then
    some (String.mk ('#' :: spl.get ⟨spl.length - 2, by omega⟩))
  else none

/-- The `headerTags` array right before sorting: front-matter tags first,
then the path tag, both only when `cache?.frontmatter != null`. -/
def headerTagsFn (path : String) (cache : Option CacheModel) : List String :=
  match cache with
  | none => []
  | some c =>
    match c.frontmatterTags with
    | none => []
    | some fmRes =>
      fmRes.getD [] ++ (match pathTag path with | some t => [t] | none => [])

/-- Model of `cache?.tags == null`. -/
def cacheTagsNull : Option CacheModel → Bool
  | none => true
  | some c => !c.hasTags

/-- Model of `[...paragraph.matchAll(tagRegex)].map(k => k[0]).join().replace("/",",").split(",")`. -/
def lineTagsRaw (para : List Char) : List (List Char) :=
  splitOnCh ',' (replFirstSlash (joinComma (matchAllTag para)))

/-- The stored tags of a body group: line tags, then the (already sorted)
header tags, then `sort().filter(dedupe)`. -/
def storedLineTags (para : List Char) (sortedHts : List String) : List String :=
  jsDedupe (jsSortStr ((lineTagsRaw para).map String.mk ++ sortedHts))

/-- The per-line loop of `setFileMap`: one body selection per line with a
`tagRegex` hit, with the excerpt window taken in the newline-flattened
document at the accumulated offset. -/
def bodyLoop (path : String) (hasHdr : Bool) (date : Option String)
    (sortedHts : List String) (flat : List Char) :
    List (List Char) → Nat → Nat → List Selection
  | [], _, _ => []
  | para :: rest, i, offset =>
    match searchTag para with
    | some tagIdx =>
      { hasHeader := hasHdr, date := date, kind := KC, cursor := i, path := path,
        description := String.mk
          (jsSubstringC flat (((offset + tagIdx : Nat) : Int) - 100)
            (((offset + tagIdx : Nat) : Int) + 100)),
        tags := storedLineTags para sortedHts } ::
        bodyLoop path hasHdr date sortedHts flat rest (i + 1) (offset + para.length)
    | none => bodyLoop path hasHdr date sortedHts flat rest (i + 1) (offset + para.length)

/-- Model of `setFileMap`'s selection list for one document. -/
def extractSelections (path : String) (cache : Option CacheModel) (data : String) :
    List Selection :=
  let hts := headerTagsFn path cache
  let date := extractDate data
  if cacheTagsNull cache = true ∧ hts = [] then
    [{ hasHeader := false, date := date, kind := KO, cursor := 0, path := path,
       description := "", tags := [] }]
  else
    let sortedHts := jsSortStr hts
    let headerPart : List Selection :=
      if hts = [] then [] else
        [{ hasHeader := true, date := date, kind := KC, cursor := 0, path := path,
           description := String.mk ((flattenNl data.toList).take 200),
           tags := jsDedupe sortedHts }]
    headerPart ++
      bodyLoop path (decide (hts ≠ [])) date sortedHts (flattenNl data.toList)
        (splitOnCh '\n' data.toList) 0 0

/-! ### The document index (`fileMap`) -/

/-- Model of `fileMap.delete(file.path)` on the association-list model of the map. -/
def deleteFileMap (m : List (String × List Selection)) (path : String) :
    List (String × List Selection) :=
  m.filter (fun p => decide (p.1 ≠ path))

/-- Model of `fileMap.set(path, sels)`: update in place, else append (JavaScript
`Map` iteration keeps insertion order). -/
def setFileMapEntry (m : List (String × List Selection)) (path : String)
    (sels : List Selection) : List (String × List Selection) :=
  if m.any (fun p => decide (p.1 = path)) then
    m.map (fun p => if p.1 = path then (path, sels) else p)
  else m ++ [(path, sels)]

def setFileMap (m : List (String × List Selection)) (path : String)
    (cache : Option CacheModel) (data : String) : List (String × List Selection) :=
  setFileMapEntry m path (extractSelections path cache data)

/-- The `compare` function of the source (lines 196-204). -/
def compareSel (a b : Selection) : Int :=
  match a.date with
  | none => 1
  | some da =>
    match b.date with
    | none => -1
    | some db => if charsLt db.toList da.toList then -1 else 1

/-- Model of `toSelections`: flatten the map's values in iteration order, then
`sort(compare)`.  `Array.prototype.sort` with this inconsistent comparator
is engine-defined on ties; it is modelled by insertion sort driven by
`compare(a, b) < 0`. -/
def toSelections (m : List (String × List Selection)) : List Selection :=
  insSort (fun a b => decide (compareSel a b = -1)) (m.map Prod.snd).flatten

/-! ### The query engine (`SelectorModal.getSuggestions`) -/

/-- Model of `page.tags.join()`. -/
def tagsJoined (tags : List String) : List Char := joinComma (tags.map String.toList)

/-- Model of `tagsJoin.contains(subQuery)`. -/
def tokMatch (tags : List String) (tok : String) : Bool :=
  charsHasSeg tok.toList (tagsJoined tags)

/-- Model of `query.split(" ")`. -/
def tokensOf (q : String) : List String := (splitOnCh ' ' q.toList).map String.mk

/-- The body of `getSuggestions`: `filter` over the rows, threading the
`currentPath` variable and the in-place `page.kind = METATAG` writes.
Returns (filtered result, updated row array). -/
def suggGo (getNoMd getOrphan : Bool) (toks : List String) :
    List Selection → String → List Selection × List Selection
  | [], _ => ([], [])
  | page :: rest, currentPath =>
    if !page.hasHeader && getNoMd then
      let r := suggGo getNoMd getOrphan toks rest currentPath
      (page :: r.1, page :: r.2)
    else if getOrphan then
      let r := suggGo getNoMd getOrphan toks rest currentPath
      ((if page.kind = KO then page :: r.1 else r.1), page :: r.2)
    else if page.kind = KO then
      let r := suggGo getNoMd getOrphan toks rest currentPath
      (r.1, page :: r.2)
    else if toks.all (tokMatch page.tags) then
      let page' := if page.path ≠ currentPath then { page with kind := KM } else page
      let r := suggGo getNoMd getOrphan toks rest page.path
      (page' :: r.1, page' :: r.2)
    else
      let r := suggGo getNoMd getOrphan toks rest currentPath
      (r.1, page :: r.2)

def getSuggestions (query : String) (allResults : List Selection) :
    List Selection × List Selection :=
  suggGo (jsStartsWith query "!!") (jsStartsWith query "!") (tokensOf query) allResults ""

/-! ### Claim-side helper notions -/

/-- The default-mode match predicate in the claim's terms: nonempty tags
and every space-separated query token a substring of the comma-joined tags. -/
def defaultMatch (q : String) (s : Selection) : Bool :=
  (decide (s.tags ≠ [])) && (tokensOf q).all (tokMatch s.tags)

/-- The query-time reclassification pass: walking the matched rows in
order, a row whose path differs from the previous matched row's path is
relabelled `metatag`. -/
def classifyRun : String → List Selection → List Selection
  | _, [] => []
  | cur, s :: rest =>
    (if s.path ≠ cur then { s with kind := KM } else s) :: classifyRun s.path rest

/-- Paths clustered: between two equal entries everything is equal
(matching rows of one document are contiguous). -/
def pclu (l : List String) : Prop :=
  ∀ i j k : Fin l.length, i < j → j < k → l.get i = l.get k → l.get j = l.get k

instance (l : List String) : Decidable (pclu l) := by
  unfold pclu; infer_instance

/-! ### Basic lemmas: string order, sorting, dedupe -/

theorem charsLt_asymm : ∀ a b : List Char, charsLt a b = true → charsLt b a = false
  | [], [] => by simp [charsLt]
  | [], _ :: _ => by simp [charsLt]
  | _ :: _, [] => by simp [charsLt]
  | a :: as, b :: bs => by
    simp only [charsLt]
    by_cases h1 : a < b
    · simp [h1, asymm h1, not_lt_of_gt h1]
    · by_cases h2 : b < a
      · simp [h1, h2]
      · simp only [h1, h2, if_neg, if_false]
        intro h
        simpa using charsLt_asymm as bs h

theorem charsLt_or : ∀ a b c : List Char, charsLt c a = true →
    charsLt c b = true ∨ charsLt b a = true
  | a, b, [] => by
    cases a with
    | nil => simp [charsLt]
    | cons a0 as =>
      cases b with
      | nil => simp [charsLt]
      | cons b0 bs => simp [charsLt]
  | a, [], c0 :: cs => by
    cases a with
    | nil => simp [charsLt]
    | cons a0 as => simp [charsLt]
  | [], _ :: _, _ :: _ => by simp [charsLt]
  | a0 :: as, b0 :: bs, c0 :: cs => by
    simp only [charsLt]
    intro h
    rcases lt_trichotomy c0 b0 with hcb | hcb | hcb
    · left; simp [hcb]
    · subst hcb
      rcases lt_trichotomy c0 a0 with hca | hca | hca
      · right; simp [hca]
      · subst hca
        simp only [lt_irrefl, if_neg, if_false] at h ⊢
        rcases charsLt_or as bs cs (by simpa using h) with h2 | h2
        · left; simpa using h2
        · right; simpa using h2
      · simp [not_lt_of_gt hca, hca, lt_irrefl] at h
    · right
      rcases lt_trichotomy c0 a0 with hca | hca | hca
      · simp [hcb.trans hca]
      · subst hca; simp [hcb]
      · simp [not_lt_of_gt hca, hca, lt_irrefl] at h

theorem jsStrLe_total (a b : String) : jsStrLe a b = true ∨ jsStrLe b a = true := by
  unfold jsStrLe
  cases h : charsLt b.toList a.toList with
  | true =>
    right
    rw [charsLt_asymm _ _ h]
    rfl
  | false =>
    left
    rfl

theorem jsStrLe_trans {a b c : String} (h1 : jsStrLe a b = true) (h2 : jsStrLe b c = true) :
    jsStrLe a c = true := by
  unfold jsStrLe at h1 h2 ⊢
  rw [Bool.not_eq_true'] at h1 h2 ⊢
  cases hcon : charsLt c.toList a.toList with
  | false => rfl
  | true =>
    rcases charsLt_or a.toList b.toList c.toList hcon with h3 | h3
    · rw [h3] at h2; cases h2
    · rw [h3] at h1; cases h1

theorem mem_ordInsStr {x y : String} : ∀ l : List String,
    (y ∈ ordInsStr x l ↔ y = x ∨ y ∈ l)
  | [] => by simp [ordInsStr]
  | b :: l => by
    cases h : jsStrLe x b with
    | true =>
      simp only [ordInsStr, h, if_true, List.mem_cons]
    | false =>
      simp only [ordInsStr, h, Bool.false_eq_true, if_false, List.mem_cons, mem_ordInsStr l]
      tauto

theorem mem_jsSortStr {y : String} : ∀ l : List String, (y ∈ jsSortStr l ↔ y ∈ l)
  | [] => Iff.rfl
  | x :: l => by
    simp only [jsSortStr, mem_ordInsStr, List.mem_cons, mem_jsSortStr l]

theorem pairwise_ordInsStr {x : String} : ∀ {l : List String},
    l.Pairwise (fun a b => jsStrLe a b = true) →
    (ordInsStr x l).Pairwise (fun a b => jsStrLe a b = true)
  | [], _ => by simp [ordInsStr]
  | b :: l, h => by
    rcases List.pairwise_cons.mp h with ⟨hb, hl⟩
    cases hle : jsStrLe x b with
    | true =>
      simp only [ordInsStr, hle, if_true]
      refine List.pairwise_cons.mpr ⟨?_, h⟩
      intro z hz
      rcases List.mem_cons.mp hz with rfl | hz
      · exact hle
      · exact jsStrLe_trans hle (hb z hz)
    | false =>
      simp only [ordInsStr, hle, Bool.false_eq_true, if_false]
      refine List.pairwise_cons.mpr ⟨?_, pairwise_ordInsStr hl⟩
      intro z hz
      rcases (mem_ordInsStr _).mp hz with rfl | hz
      · rcases jsStrLe_total z b with h1 | h1
        · rw [h1] at hle; cases hle
        · exact h1
      · exact hb z hz

theorem pairwise_jsSortStr : ∀ l : List String,
    (jsSortStr l).Pairwise (fun a b => jsStrLe a b = true)
  | [] => List.Pairwise.nil
  | x :: l => pairwise_ordInsStr (pairwise_jsSortStr l)

theorem length_ordInsStr (x : String) : ∀ l : List String,
    (ordInsStr x l).length = l.length + 1
  | [] => rfl
  | b :: l => by
    cases h : jsStrLe x b with
    | true => simp [ordInsStr, h]
    | false => simp [ordInsStr, h, length_ordInsStr x l]

theorem length_jsSortStr : ∀ l : List String, (jsSortStr l).length = l.length
  | [] => rfl
  | x :: l => by simp [jsSortStr, length_ordInsStr, length_jsSortStr l]

theorem mem_dedupeAux {y : String} : ∀ (l seen : List String),
    (y ∈ dedupeAux seen l ↔ y ∈ l ∧ y ∉ seen)
  | [], seen => by simp [dedupeAux]
  | x :: xs, seen => by
    by_cases h : x ∈ seen
    · rw [show dedupeAux seen (x :: xs) = dedupeAux seen xs from by
        simp [dedupeAux, h]]
      rw [mem_dedupeAux xs seen]
      constructor
      · rintro ⟨h1, h2⟩
        exact ⟨List.mem_cons_of_mem _ h1, h2⟩
      · rintro ⟨h1, h2⟩
        rcases List.mem_cons.mp h1 with rfl | h1
        · exact absurd h h2
        · exact ⟨h1, h2⟩
    · rw [show dedupeAux seen (x :: xs) = x :: dedupeAux (x :: seen) xs from by
        simp [dedupeAux, h]]
      constructor
      · intro hy
        rcases List.mem_cons.mp hy with rfl | hy
        · exact ⟨List.mem_cons_self _ _, h⟩
        · rcases (mem_dedupeAux xs (x :: seen)).mp hy with ⟨h1, h2⟩
          exact ⟨List.mem_cons_of_mem _ h1, fun hs => h2 (List.mem_cons_of_mem _ hs)⟩
      · rintro ⟨h1, h2⟩
        rcases List.mem_cons.mp h1 with rfl | h1
        · exact List.mem_cons_self _ _
        · rcases eq_or_ne y x with rfl | hne
          · exact List.mem_cons_self _ _
          · refine List.mem_cons_of_mem _ ((mem_dedupeAux xs (x :: seen)).mpr ⟨h1, ?_⟩)
            intro hy
            rcases List.mem_cons.mp hy with h3 | h3
            · exact hne h3
            · exact h2 h3

theorem nodup_dedupeAux : ∀ (l seen : List String), (dedupeAux seen l).Nodup
  | [], _ => List.nodup_nil
  | x :: xs, seen => by
    simp only [dedupeAux]
    by_cases h : x ∈ seen
    · simpa [h] using nodup_dedupeAux xs seen
    · simp only [h, if_false, List.nodup_cons]
      refine ⟨fun hx => ?_, nodup_dedupeAux xs (x :: seen)⟩
      exact ((mem_dedupeAux xs (x :: seen)).mp hx).2 (List.mem_cons_self x seen)

theorem sublist_dedupeAux : ∀ (l seen : List String), List.Sublist (dedupeAux seen l) l
  | [], _ => List.Sublist.refl []
  | x :: xs, seen => by
    simp only [dedupeAux]
    by_cases h : x ∈ seen
    · simp only [h, if_true]
      exact (sublist_dedupeAux xs seen).cons x
    · simp only [h, if_false]
      exact (sublist_dedupeAux xs (x :: seen)).cons₂ x

theorem dedupeAux_ne_nil (x : String) (xs : List String) :
    dedupeAux [] (x :: xs) ≠ [] := by
  simp [dedupeAux]

theorem mem_dedupSort {y : String} (l : List String) : y ∈ dedupSort l ↔ y ∈ l := by
  unfold dedupSort jsDedupe
  rw [mem_dedupeAux, mem_jsSortStr]
  simp

theorem nodup_dedupSort (l : List String) : (dedupSort l).Nodup :=
  nodup_dedupeAux _ _

theorem pairwise_dedupSort (l : List String) :
    (dedupSort l).Pairwise (fun a b => jsStrLe a b = true) :=
  (pairwise_jsSortStr l).sublist (sublist_dedupeAux _ _)

theorem dedupSort_ne_nil {l : List String} (h : l ≠ []) : dedupSort l ≠ [] := by
  unfold dedupSort jsDedupe
  have hlen : (jsSortStr l).length = l.length := length_jsSortStr l
  cases hs : jsSortStr l with
  | nil => rw [hs] at hlen; exact absurd (List.length_eq_zero.mp hlen.symm) h
  | cons x xs => exact dedupeAux_ne_nil x xs

/-! ### Lemmas about the query engine -/

theorem charsLeadWith_bang_of_bangbang : ∀ l : List Char,
    charsLeadWith ['!', '!'] l = true → charsLeadWith ['!'] l = true
  | [], h => by simp [charsLeadWith] at h
  | c :: cs, h => by
    by_cases hc : ('!' : Char) = c
    · subst hc
      simp [charsLeadWith]
    · simp [charsLeadWith, hc] at h

theorem jsStartsWith_bang_of_bangbang {q : String} (h : jsStartsWith q "!!" = true) :
    jsStartsWith q "!" = true := by
  unfold jsStartsWith at h ⊢
  exact charsLeadWith_bang_of_bangbang q.toList h

theorem suggGo_noMd (toks : List String) :
    ∀ (l : List Selection) (cur : String),
    (∀ s ∈ l, s.kind = KO → s.hasHeader = false) →
    (suggGo true true toks l cur).1 = l.filter (fun s => !s.hasHeader)
  | [], _, _ => rfl
  | page :: rest, cur, hinv => by
    have hrest : ∀ s ∈ rest, s.kind = KO → s.hasHeader = false :=
      fun s hs => hinv s (List.mem_cons_of_mem _ hs)
    cases hh : page.hasHeader with
    | false =>
      simp only [suggGo, hh, Bool.not_false, Bool.true_and, if_true, List.filter_cons, hh,
        Bool.not_false, suggGo_noMd toks rest cur hrest]
    | true =>
      have hko : ¬ page.kind = KO := by
        intro hk
        rw [hinv page (List.mem_cons_self _ _) hk] at hh
        cases hh
      simp only [suggGo, hh, Bool.not_true, Bool.false_and, Bool.false_eq_true, if_false,
        if_true, hko, List.filter_cons, Bool.not_true, suggGo_noMd toks rest cur hrest]

theorem suggGo_orphan (toks : List String) :
    ∀ (l : List Selection) (cur : String),
    (suggGo false true toks l cur).1 = l.filter (fun s => decide (s.kind = KO))
  | [], _ => rfl
  | page :: rest, cur => by
    by_cases hko : page.kind = KO
    · simp [suggGo, hko, List.filter_cons, suggGo_orphan toks rest cur]
    · simp [suggGo, hko, List.filter_cons, suggGo_orphan toks rest cur]

theorem suggGo_default (toks : List String) :
    ∀ (l : List Selection) (cur : String),
    (∀ s ∈ l, (s.tags = [] ↔ s.kind = KO)) →
    (suggGo false false toks l cur).1 =
      classifyRun cur (l.filter (fun s => decide (s.tags ≠ []) && toks.all (tokMatch s.tags)))
  | [], _, _ => rfl
  | page :: rest, cur, hz => by
    have hrest : ∀ s ∈ rest, (s.tags = [] ↔ s.kind = KO) :=
      fun s hs => hz s (List.mem_cons_of_mem _ hs)
    by_cases hko : page.kind = KO
    · have htags : page.tags = [] := (hz page (List.mem_cons_self _ _)).mpr hko
      simp [suggGo, hko, List.filter_cons, htags, suggGo_default toks rest cur hrest]
    · have htags : page.tags ≠ [] := fun h => hko ((hz page (List.mem_cons_self _ _)).mp h)
      cases hall : toks.all (tokMatch page.tags) with
      | true =>
        simp only [suggGo, hko, if_false, hall, if_true, List.filter_cons, htags,
          decide_not, Bool.true_and, decide_eq_true_eq]
        simp only [suggGo_default toks rest page.path hrest, classifyRun]
        simp [htags, hall]
      | false =>
        simp only [suggGo, hko, if_false, hall, List.filter_cons, Bool.false_eq_true,
          suggGo_default toks rest cur hrest]
        simp [htags, hall]

theorem suggGo_res_paths (toks : List String) :
    ∀ (l : List Selection) (gn go : Bool) (cur : String) (s : Selection),
    s ∈ (suggGo gn go toks l cur).1 → ∃ s0 ∈ l, s.path = s0.path
  | [], _, _, _, _, h => by simp [suggGo] at h
  | page :: rest, gn, go, cur, s, h => by
    have step : ∀ (gn' go' : Bool) (cur' : String) (s : Selection),
        s ∈ (suggGo gn' go' toks rest cur').1 →
        ∃ s0 ∈ page :: rest, s.path = s0.path := by
      intro gn' go' cur' s hs
      rcases suggGo_res_paths toks rest gn' go' cur' s hs with ⟨s0, hs0, hp⟩
      exact ⟨s0, List.mem_cons_of_mem _ hs0, hp⟩
    by_cases h1 : (!page.hasHeader && gn) = true
    · simp only [suggGo, h1, if_true] at h
      rcases List.mem_cons.mp h with rfl | h
      · exact ⟨s, List.mem_cons_self _ _, rfl⟩
      · exact step gn go cur s h
    · cases go with
      | true =>
        simp only [suggGo, h1, if_true, if_false] at h
        by_cases hko : page.kind = KO
        · simp only [hko, if_pos rfl] at h
          rcases List.mem_cons.mp h with rfl | h
          · exact ⟨s, List.mem_cons_self _ _, rfl⟩
          · exact step gn true cur s h
        · rw [if_neg hko] at h
          exact step gn true cur s h
      | false =>
        by_cases hko : page.kind = KO
        · simp only [suggGo, h1, hko, if_true, if_false, Bool.false_eq_true] at h
          exact step gn false cur s h
        · cases hall : toks.all (tokMatch page.tags) with
          | true =>
            simp only [suggGo, h1, hko, hall, if_true, if_false, Bool.false_eq_true] at h
            rcases List.mem_cons.mp h with rfl | h
            · refine ⟨page, List.mem_cons_self _ _, ?_⟩
              by_cases hp : page.path ≠ cur <;> simp [hp]
            · exact step gn false page.path s h
          | false =>
            simp only [suggGo, h1, hko, hall, Bool.false_eq_true, if_false] at h
            exact step gn false cur s h

/-- Everything except the `kind` field of a row. -/
def stripKind (s : Selection) : Bool × Option String × Nat × String × String × List String :=
  (s.hasHeader, s.date, s.cursor, s.path, s.description, s.tags)

theorem suggGo_state_stripKind (gn go : Bool) (toks : List String)
    (l : List Selection) : ∀ (cur : String),
    ((suggGo gn go toks l cur).2).map stripKind = l.map stripKind := by
  induction l with
  | nil => intro cur; rfl
  | cons page rest ih =>
    intro cur
    by_cases h1 : (!page.hasHeader && gn) = true
    · simp only [suggGo, h1, if_true, List.map_cons, ih]
    · cases go with
      | true =>
        by_cases hko : page.kind = KO <;>
          simp [suggGo, h1, hko, ih]
      | false =>
        by_cases hko : page.kind = KO
        · simp only [suggGo, h1, hko, if_true, if_false, Bool.false_eq_true,
            List.map_cons, ih]
        · cases hall : toks.all (tokMatch page.tags) with
          | true =>
            simp only [suggGo, h1, hko, hall, if_true, if_false, Bool.false_eq_true,
              List.map_cons, ih]
            by_cases hp : page.path ≠ cur <;> simp [hp, stripKind]
          | false =>
            simp only [suggGo, h1, hko, hall, Bool.false_eq_true, if_false,
              List.map_cons, ih]

theorem suggGo_idem (gn go : Bool) (toks : List String) (l : List Selection) :
    ∀ (cur : String),
    suggGo gn go toks ((suggGo gn go toks l cur).2) cur = suggGo gn go toks l cur := by
  induction l with
  | nil => intro cur; rfl
  | cons page rest ih =>
    intro cur
    by_cases h1 : (!page.hasHeader && gn) = true
    · simp only [suggGo, h1, if_true]
      simp [suggGo, h1, ih cur]
    · cases go with
      | true =>
        simp only [suggGo, h1, if_true, if_false]
        by_cases hko : page.kind = KO <;> simp [suggGo, h1, hko, ih cur]
      | false =>
        by_cases hko : page.kind = KO
        · simp only [suggGo, h1, hko, if_true, if_false, Bool.false_eq_true]
          simp [suggGo, h1, hko, ih cur]
        · cases hall : toks.all (tokMatch page.tags) with
          | true =>
            by_cases hp : page.path ≠ cur
            · simp only [suggGo, h1, hko, hall, hp, if_true, if_false, Bool.false_eq_true]
              have hkm : ({ page with kind := KM } : Selection).kind = KM := rfl
              have hkoKM : ¬ (KM = KO) := by decide
              simp [suggGo, h1, hkm, hkoKM, hall, hp, ih page.path]
            · simp only [suggGo, h1, hko, hall, hp, if_true, if_false, Bool.false_eq_true]
              simp [suggGo, h1, hko, hall, hp, ih page.path]
          | false =>
            simp only [suggGo, h1, hko, hall, Bool.false_eq_true, if_false]
            simp [suggGo, h1, hko, hall, ih cur]

/-! ### Lemmas about the reclassification pass -/

theorem length_classifyRun : ∀ (cur : String) (l : List Selection),
    (classifyRun cur l).length = l.length
  | _, [] => rfl
  | cur, s :: rest => by
    simp [classifyRun, length_classifyRun s.path rest]

theorem classifyRun_getElem? : ∀ (l : List Selection) (cur : String) (j : Nat),
    (classifyRun cur l)[j]? = (l[j]?).map (fun s =>
      if s.path ≠ (if j = 0 then cur else ((l[j - 1]?).map Selection.path).getD cur)
      then { s with kind := KM } else s)
  | [], cur, j => by simp [classifyRun]
  | s :: rest, cur, 0 => by simp [classifyRun]
  | s :: rest, cur, (j + 1) => by
    have ih := classifyRun_getElem? rest s.path j
    have e : (classifyRun cur (s :: rest))[j + 1]? = (classifyRun s.path rest)[j]? := by
      show ((if s.path ≠ cur then { s with kind := KM } else s) ::
        classifyRun s.path rest)[j + 1]? = _
      rw [List.getElem?_cons_succ]
    rw [e, ih]
    cases j with
    | zero => simp
    | succ j' =>
      cases hrest : rest[j']? with
      | none =>
        have h2 : rest[j' + 1]? = none := by
          rw [List.getElem?_eq_none_iff] at hrest ⊢
          omega
        simp [h2]
      | some t => simp [hrest]

theorem relabel_path (c : Prop) [Decidable c] (s : Selection) :
    (if c then { s with kind := KM } else s).path = s.path := by
  split <;> rfl

theorem relabel_path' (c : Prop) [Decidable c] (s : Selection) :
    (if c then s else { s with kind := KM }).path = s.path := by
  split <;> rfl

theorem classifyRun_path_getElem? (cur : String) (l : List Selection) (j : Nat) :
    ((classifyRun cur l)[j]?).map Selection.path = (l[j]?).map Selection.path := by
  rw [classifyRun_getElem?]
  cases l[j]? with
  | none => rfl
  | some s => simp [relabel_path, relabel_path']

/-! ### Lemmas about `insSort` on selections -/

theorem mem_ordIns {le : Selection → Selection → Bool} {x y : Selection} :
    ∀ l : List Selection, (y ∈ ordIns le x l ↔ y = x ∨ y ∈ l)
  | [] => by simp [ordIns]
  | b :: l => by
    cases h : le x b with
    | true => simp only [ordIns, h, if_true, List.mem_cons]
    | false =>
      simp only [ordIns, h, Bool.false_eq_true, if_false, List.mem_cons, mem_ordIns l]
      tauto

theorem mem_insSort {le : Selection → Selection → Bool} {y : Selection} :
    ∀ l : List Selection, (y ∈ insSort le l ↔ y ∈ l)
  | [] => Iff.rfl
  | x :: l => by
    simp only [insSort, mem_ordIns, List.mem_cons, mem_insSort l]

theorem mem_of_getElem?_eq {α : Type} {l : List α} {n : Nat} {a : α}
    (h : l[n]? = some a) : a ∈ l := by
  rcases List.getElem?_eq_some_iff.mp h with ⟨hlt, he⟩
  exact he ▸ List.getElem_mem hlt

theorem getElem_map_path {M : List Selection} {n : Nat} {mn : Selection}
    (hn : n < M.length) (hmn : M[n]? = some mn) :
    (M.map Selection.path).get ⟨n, by simpa using hn⟩ = mn.path := by
  rw [List.get_eq_getElem, List.getElem_map]
  have h2 := (List.getElem?_eq_getElem hn).symm.trans hmn
  exact congrArg Selection.path (Option.some.inj h2)

/-- Default-mode `getSuggestions` is a filter followed by the
reclassification pass. -/
theorem gs_default_eq (q : String) (rows : List Selection)
    (hq : jsStartsWith q "!" = false)
    (hz : ∀ s ∈ rows, (s.tags = [] ↔ s.kind = KO)) :
    (getSuggestions q rows).1 = classifyRun "" (rows.filter (defaultMatch q)) := by
  have hqq : jsStartsWith q "!!" = false := by
    cases hv : jsStartsWith q "!!" with
    | true => rw [jsStartsWith_bang_of_bangbang hv] at hq; cases hq
    | false => rfl
  unfold getSuggestions
  rw [hq, hqq]
  exact suggGo_default (tokensOf q) rows "" hz

/-! ### Claim C1: default-mode search -/

/-- C1: default-mode search.  For a query that does not start with the
marker character, the result is exactly the reclassification pass applied
to the rows passing the claim's predicate (nonempty tags, every
space-separated query token a substring of the comma-joined tags); in the
result, the first row of each document is relabelled `metatag` and every
later row of the same document keeps label `content`.  Hypotheses: the
rows are freshly indexed (tags empty iff `orphan`; kind `content` or
`orphan`; nonempty paths) and the matching rows of one document are
contiguous (the spec leaves tie order of the global sort unspecified and
describes the pass on contiguous runs). -/
theorem c1_default_mode (q : String) (rows : List Selection)
    (hq : jsStartsWith q "!" = false)
    (hz : ∀ s ∈ rows, (s.tags = [] ↔ s.kind = KO))
    (hk : ∀ s ∈ rows, s.kind = KC ∨ s.kind = KO)
    (hp : ∀ s ∈ rows, s.path ≠ "")
    (hcl : pclu ((rows.filter (defaultMatch q)).map Selection.path)) :
    (getSuggestions q rows).1 = classifyRun "" (rows.filter (defaultMatch q))
    ∧ (∀ (j : Nat) (s : Selection), ((getSuggestions q rows).1)[j]? = some s →
        (∀ (i : Nat), i < j → ∀ t : Selection,
          ((getSuggestions q rows).1)[i]? = some t → t.path ≠ s.path) →
        s.kind = KM)
    ∧ (∀ (i j : Nat) (t s : Selection), i < j →
        ((getSuggestions q rows).1)[i]? = some t →
        ((getSuggestions q rows).1)[j]? = some s →
        t.path = s.path → s.kind = KC) := by
  have hA := gs_default_eq q rows hq hz
  have hMkc : ∀ m ∈ rows.filter (defaultMatch q), m.kind = KC := by
    intro m hm
    rcases List.mem_filter.mp hm with ⟨hmem, hpred⟩
    have htags : m.tags ≠ [] := by
      intro he
      unfold defaultMatch at hpred
      rw [he] at hpred
      simp at hpred
    rcases hk m hmem with h | h
    · exact h
    · exact absurd ((hz m hmem).mpr h) htags
  refine ⟨hA, ?_, ?_⟩
  · intro j s hjs hprev
    rw [hA, classifyRun_getElem?] at hjs
    rcases Option.map_eq_some'.mp hjs with ⟨m, hm, hrel⟩
    have hsm : s.path = m.path := by
      rw [← hrel]; exact relabel_path _ _
    cases j with
    | zero =>
      have hmpath : m.path ≠ "" :=
        hp m (List.mem_filter.mp (mem_of_getElem?_eq hm)).1
      rw [if_pos (by simpa using hmpath)] at hrel
      rw [← hrel]
    | succ j' =>
      have hjlt : j' + 1 < (rows.filter (defaultMatch q)).length :=
        (List.getElem?_eq_some_iff.mp hm).1
      rcases hcase : (rows.filter (defaultMatch q))[j']? with _ | m'
      · rw [List.getElem?_eq_none_iff] at hcase; omega
      have hpne : m'.path ≠ s.path := by
        have hRj' : (((getSuggestions q rows).1)[j']?).map Selection.path = some m'.path := by
          rw [hA, classifyRun_path_getElem?, hcase]
          rfl
        cases hRt : ((getSuggestions q rows).1)[j']? with
        | none => rw [hRt] at hRj'; cases hRj'
        | some t =>
          rw [hRt] at hRj'
          have hteq : t.path = m'.path := by simpa using hRj'
          have hne := hprev j' (by omega) t hRt
          rw [hteq] at hne
          exact hne
      have hcond : m.path ≠
          (if j' + 1 = 0 then "" else
            (((rows.filter (defaultMatch q))[j' + 1 - 1]?).map Selection.path).getD "") := by
        rw [if_neg (by omega)]
        have e : j' + 1 - 1 = j' := by omega
        rw [e, hcase]
        simp only [Option.map_some', Option.getD_some]
        intro hc
        exact hpne (by rw [← hc, ← hsm])
      rw [if_pos hcond] at hrel
      rw [← hrel]
  · intro i j t s hij hit hjs hpath
    rw [hA, classifyRun_getElem?] at hit hjs
    rcases Option.map_eq_some'.mp hit with ⟨mi, hmi, hreli⟩
    rcases Option.map_eq_some'.mp hjs with ⟨mj, hmj, hrelj⟩
    have hsm : s.path = mj.path := by
      rw [← hrelj]; exact relabel_path _ _
    have htm : t.path = mi.path := by
      rw [← hreli]; exact relabel_path _ _
    cases j with
    | zero => omega
    | succ j'' =>
      have hjlt : j'' + 1 < (rows.filter (defaultMatch q)).length :=
        (List.getElem?_eq_some_iff.mp hmj).1
      have hilt : i < (rows.filter (defaultMatch q)).length :=
        (List.getElem?_eq_some_iff.mp hmi).1
      rcases hcase : (rows.filter (defaultMatch q))[j'']? with _ | m'
      · rw [List.getElem?_eq_none_iff] at hcase; omega
      have hm'path : m'.path = mj.path := by
        rcases Nat.lt_or_eq_of_le (by omega : i ≤ j'') with hlt | heq
        · have h1 := getElem_map_path hilt hmi
          have h2 := getElem_map_path (by omega : j'' < (rows.filter (defaultMatch q)).length) hcase
          have h3 := getElem_map_path hjlt hmj
          have hik : ((rows.filter (defaultMatch q)).map Selection.path).get
              ⟨i, by simpa using hilt⟩ =
              ((rows.filter (defaultMatch q)).map Selection.path).get
              ⟨j'' + 1, by simpa using hjlt⟩ := by
            rw [h1, h3, ← htm, ← hsm, hpath]
          have hmid := hcl ⟨i, by simpa using hilt⟩
            ⟨j'', by simp; omega⟩ ⟨j'' + 1, by simpa using hjlt⟩
            hlt (Nat.lt_succ_self j'') hik
          rw [h2, h3] at hmid
          exact hmid
        · subst heq
          have hmm : some mi = some m' := hmi.symm.trans hcase
          have hmieq : mi = m' := Option.some.inj hmm
          rw [← hmieq, ← htm, hpath]
          exact hsm
      have hcond : ¬ (mj.path ≠
          (if j'' + 1 = 0 then "" else
            (((rows.filter (defaultMatch q))[j'' + 1 - 1]?).map Selection.path).getD "")) := by
        rw [if_neg (by omega)]
        have e : j'' + 1 - 1 = j'' := by omega
        rw [e, hcase]
        simp only [Option.map_some', Option.getD_some]
        intro hc
        exact hc hm'path.symm
      rw [if_neg hcond] at hrelj
      rw [← hrelj]
      exact hMkc mj (mem_of_getElem?_eq hmj)

/-- Concrete snapshot for the C1 witness: two rows of document `a.md`
(tags containing `#a`/`#ab`, exhibiting the spurious substring match of
query `a`), one non-matching document `b.md`, one orphan. -/
def c1rows : List Selection :=
  [{ hasHeader := true, date := none, kind := KC, cursor := 0, path := "a.md",
     description := "", tags := ["#a", "#ab"] },
   { hasHeader := true, date := none, kind := KC, cursor := 3, path := "a.md",
     description := "", tags := ["#ab"] },
   { hasHeader := true, date := none, kind := KC, cursor := 0, path := "b.md",
     description := "", tags := ["#b"] },
   { hasHeader := false, date := none, kind := KO, cursor := 0, path := "o.md",
     description := "", tags := [] }]

theorem c1_default_mode_witness :
    pclu ((c1rows.filter (defaultMatch "a")).map Selection.path)
    ∧ ((getSuggestions "a" c1rows).1 = classifyRun "" (c1rows.filter (defaultMatch "a"))
      ∧ (∀ (j : Nat) (s : Selection), ((getSuggestions "a" c1rows).1)[j]? = some s →
          (∀ (i : Nat), i < j → ∀ t : Selection,
            ((getSuggestions "a" c1rows).1)[i]? = some t → t.path ≠ s.path) →
          s.kind = KM)
      ∧ (∀ (i j : Nat) (t s : Selection), i < j →
          ((getSuggestions "a" c1rows).1)[i]? = some t →
          ((getSuggestions "a" c1rows).1)[j]? = some s →
          t.path = s.path → s.kind = KC)) :=
  ⟨by decide,
    c1_default_mode "a" c1rows (by decide) (by decide) (by decide) (by decide) (by decide)⟩

/-! ### Claim C2: bang and double-bang query modes -/

/-- C2: query-mode dispatch by prefix.  For a query starting with `!!`,
the result is exactly the rows with `hasHeader = false`; for a query
starting with `!` but not `!!`, exactly the rows of kind `orphan`.  The
double-bang part uses the store invariant that an orphan row never has a
header (rows with `hasHeader = true` are routed through the orphan test
by the source's `else if` chain). -/
theorem c2_query_mode_dispatch (q : String) (rows : List Selection)
    (hinv : ∀ s ∈ rows, s.kind = KO → s.hasHeader = false) :
    (jsStartsWith q "!!" = true →
      (getSuggestions q rows).1 = rows.filter (fun s => !s.hasHeader))
    ∧ (jsStartsWith q "!" = true → jsStartsWith q "!!" = false →
      (getSuggestions q rows).1 = rows.filter (fun s => decide (s.kind = KO))) := by
  constructor
  · intro h2
    have h1 : jsStartsWith q "!" = true := jsStartsWith_bang_of_bangbang h2
    unfold getSuggestions
    rw [h1, h2]
    exact suggGo_noMd _ rows "" hinv
  · intro h1 h2
    unfold getSuggestions
    rw [h1, h2]
    exact suggGo_orphan _ rows ""

/-- Concrete snapshot for the C2 witness. -/
def c2rows : List Selection :=
  [{ hasHeader := true, date := none, kind := KC, cursor := 0, path := "a.md",
     description := "", tags := ["#a"] },
   { hasHeader := false, date := none, kind := KC, cursor := 2, path := "c.md",
     description := "", tags := ["#c"] },
   { hasHeader := false, date := none, kind := KO, cursor := 0, path := "o.md",
     description := "", tags := [] }]

theorem c2_query_mode_dispatch_witness :
    (∀ s ∈ c2rows, s.kind = KO → s.hasHeader = false)
    ∧ (getSuggestions "!!" c2rows).1 = c2rows.filter (fun s => !s.hasHeader) :=
  ⟨by decide, (c2_query_mode_dispatch "!!" c2rows (by decide)).1 (by decide)⟩

/-! ### Claim C7: statelessness of the query engine -/

/-- A stored row whose kind is rewritten by a default-mode query. -/
def c7row : Selection :=
  { hasHeader := true, date := none, kind := KC, cursor := 0, path := "p.md",
    description := "", tags := ["#a"] }

/-- C7 counterexample: querying is not state-free.  On the snapshot
`[c7row]` the default-mode query `a` rewrites the stored row's kind
(`content` becomes `metatag`), so the post-state differs from the
pre-state, contradicting the claim that no stored row is modified. -/
theorem c7_counterexample : ¬ ((getSuggestions "a" [c7row]).2 = [c7row]) := by decide

/-- C7 amended: a `getSuggestions` call may rewrite the `kind` field of
stored rows (the reclassification is written through to the snapshot),
but it changes nothing else, and it is idempotent: a second call with the
same query returns the identical result list and leaves the rows fixed. -/
theorem c7_amended (q : String) (rows : List Selection) :
    getSuggestions q ((getSuggestions q rows).2) = getSuggestions q rows
    ∧ ((getSuggestions q rows).2).map stripKind = rows.map stripKind :=
  ⟨suggGo_idem _ _ _ rows "", suggGo_state_stripKind _ _ _ rows ""⟩

/-! ### Claim C3: the date comparator -/

theorem compareSel_none_left {a b : Selection} (h : a.date = none) :
    compareSel a b = 1 := by
  unfold compareSel
  rw [h]

theorem compareSel_none_right {a b : Selection} (ha : a.date ≠ none) (hb : b.date = none) :
    compareSel a b = -1 := by
  unfold compareSel
  cases hda : a.date with
  | none => exact absurd hda ha
  | some da => rw [hb]

theorem pairwise_ordIns_date (x : Selection) :
    ∀ l : List Selection,
    l.Pairwise (fun a b : Selection => a.date = none → b.date = none) →
    (ordIns (fun a b => decide (compareSel a b = -1)) x l).Pairwise
      (fun a b => a.date = none → b.date = none)
  | [], _ => by simp [ordIns]
  | b :: l, h => by
    rcases List.pairwise_cons.mp h with ⟨hb, hl⟩
    cases hle : decide (compareSel x b = -1) with
    | true =>
      have hx : x.date ≠ none := by
        intro hn
        rw [compareSel_none_left hn] at hle
        simp at hle
      simp only [ordIns, hle, if_true]
      refine List.pairwise_cons.mpr ⟨?_, h⟩
      intro z _ hxn
      exact absurd hxn hx
    | false =>
      simp only [ordIns, hle, Bool.false_eq_true, if_false]
      refine List.pairwise_cons.mpr ⟨?_, pairwise_ordIns_date x l hl⟩
      intro w hw hbn
      rcases (mem_ordIns _).mp hw with rfl | hw
      · by_contra hxn
        have := compareSel_none_right hxn hbn
        rw [this] at hle
        simp at hle
      · exact hb w hw hbn

theorem pairwise_insSort_date : ∀ l : List Selection,
    (insSort (fun a b => decide (compareSel a b = -1)) l).Pairwise
      (fun a b => a.date = none → b.date = none)
  | [] => List.Pairwise.nil
  | x :: l => pairwise_ordIns_date x _ (pairwise_insSort_date l)

/-- Two rows with the same defined date. -/
def c3A : Selection :=
  { hasHeader := true, date := some "2024-01-01", kind := KC, cursor := 0, path := "a.md",
    description := "", tags := ["#a"] }

def c3B : Selection :=
  { hasHeader := true, date := some "2024-01-01", kind := KC, cursor := 0, path := "b.md",
    description := "", tags := ["#b"] }

/-- A row without a date. -/
def c3X : Selection :=
  { hasHeader := true, date := none, kind := KC, cursor := 0, path := "x.md",
    description := "", tags := ["#x"] }

def c3m : List (String × List Selection) := [("a.md", [c3A]), ("x.md", [c3X])]

/-- C3 counterexample: with two distinct entries carrying the same
defined date, each date is (lexicographically) at least the other, yet
the comparator orders neither before the other (`compare` returns `1`
both ways), so "A sorts before B iff A.date >= B.date" fails at date
equality. -/
theorem c3_counterexample :
    c3A.date = some "2024-01-01" ∧ c3B.date = some "2024-01-01"
    ∧ c3A ≠ c3B ∧ compareSel c3A c3B ≠ -1 ∧ compareSel c3B c3A ≠ -1 := by
  decide

/-- C3 amended: rows with a defined date sort before rows with an
undefined date, and among defined dates `A` sorts before `B` iff
`A.date > B.date` strictly (descending); ties are not ordered by the
comparator.  Moreover the flattened, sorted snapshot never places an
undated row before a dated one. -/
theorem c3_amended (a b : Selection) (m : List (String × List Selection)) :
    (a.date = none → compareSel a b = 1)
    ∧ (a.date ≠ none → b.date = none → compareSel a b = -1)
    ∧ (∀ da db, a.date = some da → b.date = some db →
        (compareSel a b = -1 ↔ charsLt db.toList da.toList = true))
    ∧ (toSelections m).Pairwise (fun x y => x.date = none → y.date = none) := by
  refine ⟨compareSel_none_left, compareSel_none_right, ?_, pairwise_insSort_date _⟩
  intro da db hda hdb
  have e : compareSel a b = if charsLt db.toList da.toList = true then -1 else 1 := by
    unfold compareSel
    rw [hda, hdb]
  rw [e]
  cases hlt : charsLt db.toList da.toList with
  | true => decide
  | false => decide

theorem c3_amended_witness :
    compareSel c3X c3A = 1 ∧ compareSel c3A c3X = -1
    ∧ (compareSel c3A c3B = -1 ↔ charsLt "2024-01-01".toList "2024-01-01".toList = true)
    ∧ (toSelections c3m).Pairwise (fun x y => x.date = none → y.date = none) :=
  ⟨(c3_amended c3X c3A c3m).1 (by decide),
   (c3_amended c3A c3X c3m).2.1 (by decide) (by decide),
   (c3_amended c3A c3B c3m).2.2.1 "2024-01-01" "2024-01-01" (by decide) (by decide),
   (c3_amended c3A c3B c3m).2.2.2⟩

/-! ### Claim C8: unconditional removal -/

/-- C8: `deleteFileMap` is a no-op when the identity is absent, and after
removal no row with that identity appears in the flattened snapshot or in
any query result.  The hypothesis is the store invariant that every entry
holds rows whose `path` equals its key. -/
theorem c8_remove (m : List (String × List Selection)) (k : String)
    (hpaths : ∀ p ∈ m, ∀ s ∈ p.2, s.path = p.1) :
    ((∀ p ∈ m, p.1 ≠ k) → deleteFileMap m k = m)
    ∧ (∀ s ∈ toSelections (deleteFileMap m k), s.path ≠ k)
    ∧ (∀ (q : String) (s : Selection),
        s ∈ (getSuggestions q (toSelections (deleteFileMap m k))).1 → s.path ≠ k) := by
  have hb : ∀ s ∈ toSelections (deleteFileMap m k), s.path ≠ k := by
    intro s hs
    have hs2 : s ∈ ((deleteFileMap m k).map Prod.snd).flatten := (mem_insSort _).mp hs
    rcases List.mem_flatten.mp hs2 with ⟨sels, hsels, hsmem⟩
    rcases List.mem_map.mp hsels with ⟨p, hp, rfl⟩
    rcases List.mem_filter.mp hp with ⟨hpm, hpk⟩
    rw [hpaths p hpm s hsmem]
    simpa using hpk
  refine ⟨?_, hb, ?_⟩
  · intro hnone
    unfold deleteFileMap
    rw [List.filter_eq_self]
    intro p hp
    simpa using hnone p hp
  · intro q s hs
    rcases suggGo_res_paths (tokensOf q) (toSelections (deleteFileMap m k))
      (jsStartsWith q "!!") (jsStartsWith q "!") "" s hs with ⟨s0, hs0, hp⟩
    rw [hp]
    exact hb s0 hs0

def c8selA : Selection :=
  { hasHeader := true, date := none, kind := KC, cursor := 0, path := "a.md",
    description := "", tags := ["#a"] }

def c8selB : Selection :=
  { hasHeader := true, date := some "2024-01-01", kind := KC, cursor := 0, path := "b.md",
    description := "", tags := ["#b"] }

def c8m : List (String × List Selection) := [("a.md", [c8selA]), ("b.md", [c8selB])]

theorem c8_remove_witness :
    (∀ p ∈ c8m, ∀ s ∈ p.2, s.path = p.1)
    ∧ (∀ s ∈ toSelections (deleteFileMap c8m "a.md"), s.path ≠ "a.md") :=
  ⟨by decide, (c8_remove c8m "a.md" (by decide)).2.1⟩

/-! ### Claims C9 and C5: extractor invariants -/

theorem splitOnCh_ne_nil (sep : Char) : ∀ l : List Char, splitOnCh sep l ≠ []
  | [] => by simp [splitOnCh]
  | c :: cs => by
    simp only [splitOnCh]
    cases h : splitOnCh sep cs with
    | nil => simp
    | cons hd tl => by_cases hc : c = sep <;> simp [hc]

theorem bodyLoop_mem (path : String) (hh : Bool) (date : Option String)
    (sortedHts : List String) (flat : List Char) :
    ∀ (lines : List (List Char)) (i off : Nat) (s : Selection),
    s ∈ bodyLoop path hh date sortedHts flat lines i off →
    ∃ para, s.kind = KC ∧ s.path = path ∧ s.tags = storedLineTags para sortedHts
  | [], _, _, s, h => by simp [bodyLoop] at h
  | para :: rest, i, off, s, h => by
    cases hst : searchTag para with
    | some tagIdx =>
      simp only [bodyLoop, hst] at h
      rcases List.mem_cons.mp h with rfl | h
      · exact ⟨para, rfl, rfl, rfl⟩
      · exact bodyLoop_mem path hh date sortedHts flat rest _ _ s h
    | none =>
      simp only [bodyLoop, hst] at h
      exact bodyLoop_mem path hh date sortedHts flat rest _ _ s h

/-- C9: every group stored by the extractor has duplicate-free tags,
sorted ascending in the JavaScript string order, and the tags list is
empty exactly for the orphan group. -/
theorem c9_tags_invariant (path : String) (cache : Option CacheModel) (data : String) :
    ∀ s ∈ extractSelections path cache data,
      s.tags.Nodup ∧ s.tags.Pairwise (fun a b => jsStrLe a b = true)
      ∧ (s.tags = [] ↔ s.kind = KO) := by
  intro s hs
  unfold extractSelections at hs
  by_cases hcond : cacheTagsNull cache = true ∧ headerTagsFn path cache = []
  · rw [if_pos hcond] at hs
    rcases List.mem_cons.mp hs with rfl | h
    · refine ⟨List.nodup_nil, List.Pairwise.nil, by simp⟩
    · simp at h
  · rw [if_neg hcond] at hs
    have hbody : ∀ para,
        s.tags = storedLineTags para (jsSortStr (headerTagsFn path cache)) →
        s.kind = KC →
        s.tags.Nodup ∧ s.tags.Pairwise (fun a b => jsStrLe a b = true)
        ∧ (s.tags = [] ↔ s.kind = KO) := by
      intro para htags hkind
      have hne : (lineTagsRaw para).map String.mk ++
          jsSortStr (headerTagsFn path cache) ≠ [] := by
        intro he
        rcases List.append_eq_nil.mp he with ⟨he1, _⟩
        exact splitOnCh_ne_nil ',' _ (List.map_eq_nil.mp he1)
      refine ⟨htags ▸ nodup_dedupSort _, htags ▸ pairwise_dedupSort _, ?_⟩
      rw [htags, hkind]
      constructor
      · intro he
        exact absurd he (dedupSort_ne_nil hne)
      · intro he
        exact absurd he (by decide)
    rcases List.mem_append.mp hs with hhd | hbd
    · by_cases hhts : headerTagsFn path cache = []
      · rw [if_pos hhts] at hhd
        simp at hhd
      · rw [if_neg hhts] at hhd
        rcases List.mem_cons.mp hhd with rfl | h
        · refine ⟨nodup_dedupSort _, pairwise_dedupSort _, ?_⟩
          show jsDedupe (jsSortStr (headerTagsFn path cache)) = [] ↔ KC = KO
          constructor
          · intro he
            exact absurd he (dedupSort_ne_nil hhts)
          · intro he
            exact absurd he (by decide)
        · simp at h
    · rcases bodyLoop_mem path _ _ _ _ _ _ _ s hbd with ⟨para, hkind, _, htags⟩
      exact hbody para htags hkind

/-- The header group stored for a document with front-matter tags
`["#b", "#a", "#b"]` and empty body. -/
def c9sel : Selection :=
  { hasHeader := true, date := none, kind := KC, cursor := 0, path := "a.md",
    description := "", tags := ["#a", "#b"] }

theorem c9_tags_invariant_witness :
    c9sel ∈ extractSelections "a.md" (some ⟨some (some ["#b", "#a", "#b"]), false⟩) ""
    ∧ (c9sel.tags.Nodup ∧ c9sel.tags.Pairwise (fun a b => jsStrLe a b = true)
      ∧ (c9sel.tags = [] ↔ c9sel.kind = KO)) :=
  ⟨by decide,
    c9_tags_invariant "a.md" (some ⟨some (some ["#b", "#a", "#b"]), false⟩) "" c9sel
      (by decide)⟩

/-- C5: a document with no header tags and no inline tag occurrence
yields exactly one orphan group (empty tags, empty excerpt, cursor 0)
and nothing else.  `cacheTagsNull` is the store's record that the
document has no inline occurrences; the third hypothesis restates this
on the raw text. -/
theorem c5_orphan (path : String) (cache : Option CacheModel) (data : String)
    (h1 : headerTagsFn path cache = [])
    (h2 : cacheTagsNull cache = true)
    (h3 : ∀ para ∈ splitOnCh '\n' data.toList, searchTag para = none) :
    extractSelections path cache data =
      [{ hasHeader := false, date := extractDate data, kind := KO, cursor := 0,
         path := path, description := "", tags := [] }] := by
  unfold extractSelections
  rw [if_pos ⟨h2, h1⟩]

theorem c5_orphan_witness :
    (headerTagsFn "a.md" none = [] ∧ cacheTagsNull none = true
      ∧ ∀ para ∈ splitOnCh '\n' "plain text only".toList, searchTag para = none)
    ∧ extractSelections "a.md" none "plain text only" =
      [{ hasHeader := false, date := extractDate "plain text only", kind := KO, cursor := 0,
         path := "a.md", description := "", tags := [] }] :=
  ⟨⟨by decide, by decide, by decide⟩,
    c5_orphan "a.md" none "plain text only" (by decide) (by decide) (by decide)⟩

/-! ### Claim C4: header-tag collection -/

/-- Modelled from the spec's words, for comparison only: header tags are
the deduplicated sorted union of the front-matter tags (contributing
nothing when structured metadata is absent) and the derived path tag,
the path tag present iff the identity has depth greater than one —
independent of whether metadata is present. -/
def specC4HeaderTags (path : String) (cache : Option CacheModel) : List String :=
  dedupSort
    ((match cache with
      | some c =>
        match c.frontmatterTags with
        | some fmRes => fmRes.getD []
        | none => []
      | none => []) ++
      (match pathTag path with | some t => [t] | none => []))

/-- C4 counterexample: for `a/b.md` with no structured metadata the code
derives no header tags at all and stores a single orphan group, while the
claim ("path tag present iff depth > 1", for every document) predicts the
header-tag set `["#a"]` and a header group carrying it: the source pushes
the path tag only inside the `cache?.frontmatter != null` branch. -/
theorem c4_counterexample :
    dedupSort (headerTagsFn "a/b.md" none) ≠ specC4HeaderTags "a/b.md" none
    ∧ (extractSelections "a/b.md" none "").map Selection.tags = [[]] := by
  decide

/-- C4 amended: for every document whose structured metadata is present,
the header-tag set is the deduplicated, sorted union of the front-matter
tags and the path tag (present iff depth > 1), and when nonempty a header
group carrying exactly these tags is emitted first at cursor 0; documents
without structured metadata get no header tags. -/
theorem c4_amended (path : String) (c : CacheModel) (fmRes : Option (List String))
    (data : String) (hc : c.frontmatterTags = some fmRes) :
    (∀ t, t ∈ dedupSort (headerTagsFn path (some c)) ↔
      (t ∈ fmRes.getD [] ∨ pathTag path = some t))
    ∧ (dedupSort (headerTagsFn path (some c))).Nodup
    ∧ (dedupSort (headerTagsFn path (some c))).Pairwise (fun a b => jsStrLe a b = true)
    ∧ (headerTagsFn path (some c) ≠ [] →
        (extractSelections path (some c) data).head? = some
          { hasHeader := true, date := extractDate data, kind := KC, cursor := 0,
            path := path, description := String.mk ((flattenNl data.toList).take 200),
            tags := jsDedupe (jsSortStr (headerTagsFn path (some c))) })
    ∧ (∀ (p : String) (c2 : CacheModel), c2.frontmatterTags = none →
        headerTagsFn p (some c2) = [] ∧ headerTagsFn p none = []) := by
  have hsome : headerTagsFn path (some c) =
      fmRes.getD [] ++ (match pathTag path with | some t => [t] | none => []) := by
    show (match c.frontmatterTags with
      | none => []
      | some fmRes =>
        fmRes.getD [] ++ (match pathTag path with | some t => [t] | none => [])) = _
    rw [hc]
  refine ⟨?_, nodup_dedupSort _, pairwise_dedupSort _, ?_, ?_⟩
  · intro t
    rw [mem_dedupSort]
    rw [hsome]
    rw [List.mem_append]
    constructor
    · rintro (h | h)
      · exact Or.inl h
      · right
        cases hpt : pathTag path with
        | none => rw [hpt] at h; simp at h
        | some pt =>
          rw [hpt] at h
          simp at h
          rw [h]
    · rintro (h | h)
      · exact Or.inl h
      · right
        rw [h]
        simp
  · intro hne
    unfold extractSelections
    rw [if_neg (fun hcon => hne hcon.2)]
    dsimp only
    rw [if_neg hne]
    rfl
  · intro p c2 hc2
    constructor
    · show (match c2.frontmatterTags with
        | none => []
        | some fmRes =>
          fmRes.getD [] ++ (match pathTag p with | some t => [t] | none => [])) = []
      rw [hc2]
    · rfl

def c4cache : CacheModel := ⟨some (some ["#draft"]), true⟩

theorem c4_amended_witness :
    c4cache.frontmatterTags = some (some ["#draft"])
    ∧ (extractSelections "notes/project/idea.md" (some c4cache) "").head? = some
        { hasHeader := true, date := extractDate "", kind := KC, cursor := 0,
          path := "notes/project/idea.md",
          description := String.mk ((flattenNl "".toList).take 200),
          tags := jsDedupe (jsSortStr (headerTagsFn "notes/project/idea.md" (some c4cache))) } :=
  ⟨rfl,
    (c4_amended "notes/project/idea.md" c4cache (some ["#draft"]) "" rfl).2.2.2.1
      (by decide)⟩

/-! ### Claim C6: body-group excerpt windows -/

theorem bodyLoop_excerpt (path : String) (hh : Bool) (date : Option String)
    (sortedHts : List String) (flat : List Char) :
    ∀ (lines : List (List Char)) (i0 off0 j tagIdx : Nat) (para : List Char),
    lines[j]? = some para → searchTag para = some tagIdx →
    ∃ s ∈ bodyLoop path hh date sortedHts flat lines i0 off0,
      s.kind = KC ∧ s.cursor = i0 + j ∧
      s.description = String.mk (jsSubstringC flat
        (((off0 + sumLens (lines.take j) + tagIdx : Nat) : Int) - 100)
        (((off0 + sumLens (lines.take j) + tagIdx : Nat) : Int) + 100)) ∧
      s.tags = storedLineTags para sortedHts
  | [], i0, off0, j, tagIdx, para, hj, _ => by simp at hj
  | l0 :: rest, i0, off0, 0, tagIdx, para, hj, hs => by
    have hpe : l0 = para := by simpa using hj
    subst hpe
    have hb : bodyLoop path hh date sortedHts flat (l0 :: rest) i0 off0 =
        { hasHeader := hh, date := date, kind := KC, cursor := i0, path := path,
          description := String.mk (jsSubstringC flat
            (((off0 + tagIdx : Nat) : Int) - 100) (((off0 + tagIdx : Nat) : Int) + 100)),
          tags := storedLineTags l0 sortedHts } ::
          bodyLoop path hh date sortedHts flat rest (i0 + 1) (off0 + l0.length) := by
      simp only [bodyLoop, hs]
    refine ⟨_, by rw [hb]; exact List.mem_cons_self _ _, rfl, by simp, ?_, rfl⟩
    have e : off0 + sumLens ((l0 :: rest).take 0) + tagIdx = off0 + tagIdx := by
      simp [sumLens]
    rw [e]
  | l0 :: rest, i0, off0, (j + 1), tagIdx, para, hj, hs => by
    have hj' : rest[j]? = some para := by simpa using hj
    rcases bodyLoop_excerpt path hh date sortedHts flat rest (i0 + 1)
        (off0 + l0.length) j tagIdx para hj' hs with ⟨s, hmem, hk, hc, hd, ht⟩
    have e : off0 + List.length l0 + sumLens (rest.take j) + tagIdx
        = off0 + sumLens ((l0 :: rest).take (j + 1)) + tagIdx := by
      simp [sumLens]
      omega
    have hcur : s.cursor = i0 + (j + 1) := by rw [hc]; omega
    have hdesc : s.description = String.mk (jsSubstringC flat
        (((off0 + sumLens ((l0 :: rest).take (j + 1)) + tagIdx : Nat) : Int) - 100)
        (((off0 + sumLens ((l0 :: rest).take (j + 1)) + tagIdx : Nat) : Int) + 100)) := by
      rw [hd, e]
    cases hst : searchTag l0 with
    | some t0 =>
      refine ⟨s, ?_, hk, hcur, hdesc, ht⟩
      simp only [bodyLoop, hst]
      exact List.mem_cons_of_mem _ hmem
    | none =>
      refine ⟨s, ?_, hk, hcur, hdesc, ht⟩
      simp only [bodyLoop, hst]
      exact hmem

/-- C6: for every line with an inline tag match, the stored body group
carries cursor = that line's index and an excerpt that is the substring
window `[c - 100, c + 100)` of the newline-flattened document text, where
`c` is the sum of the previous lines' lengths (newlines not counted) plus
the first match's index in the line; `jsSubstringC` clamps the window to
the document bounds, in particular to the start on underflow.  The last
hypothesis is the branch condition under which the extractor scans the
body at all (some inline occurrence recorded or header tags present). -/
theorem c6_body_excerpt (path : String) (cache : Option CacheModel) (data : String)
    (j tagIdx : Nat) (para : List Char)
    (hline : (splitOnCh '\n' data.toList)[j]? = some para)
    (hsearch : searchTag para = some tagIdx)
    (hbranch : ¬ (cacheTagsNull cache = true ∧ headerTagsFn path cache = [])) :
    ∃ s ∈ extractSelections path cache data,
      s.kind = KC ∧ s.cursor = j ∧
      s.description = String.mk (jsSubstringC (flattenNl data.toList)
        (((sumLens ((splitOnCh '\n' data.toList).take j) + tagIdx : Nat) : Int) - 100)
        (((sumLens ((splitOnCh '\n' data.toList).take j) + tagIdx : Nat) : Int) + 100))
      ∧ s.tags = storedLineTags para (jsSortStr (headerTagsFn path cache)) := by
  rcases bodyLoop_excerpt path (decide (headerTagsFn path cache ≠ []))
      (extractDate data) (jsSortStr (headerTagsFn path cache)) (flattenNl data.toList)
      (splitOnCh '\n' data.toList) 0 0 j tagIdx para hline hsearch with
    ⟨s, hmem, hk, hc, hd, ht⟩
  have e : 0 + sumLens ((splitOnCh '\n' data.toList).take j) + tagIdx
      = sumLens ((splitOnCh '\n' data.toList).take j) + tagIdx := by omega
  rw [e] at hd
  refine ⟨s, ?_, hk, by rw [hc]; omega, hd, ht⟩
  unfold extractSelections
  rw [if_neg hbranch]
  dsimp only
  exact List.mem_append_right _ hmem

theorem c6_body_excerpt_witness :
    ((splitOnCh '\n' "hi\n#ab cd".toList)[1]? = some "#ab cd".toList
      ∧ searchTag "#ab cd".toList = some 0)
    ∧ ∃ s ∈ extractSelections "n/f.md" (some ⟨none, true⟩) "hi\n#ab cd",
      s.kind = KC ∧ s.cursor = 1 ∧
      s.description = String.mk (jsSubstringC (flattenNl "hi\n#ab cd".toList)
        (((sumLens ((splitOnCh '\n' "hi\n#ab cd".toList).take 1) + 0 : Nat) : Int) - 100)
        (((sumLens ((splitOnCh '\n' "hi\n#ab cd".toList).take 1) + 0 : Nat) : Int) + 100))
      ∧ s.tags = storedLineTags "#ab cd".toList
          (jsSortStr (headerTagsFn "n/f.md" (some ⟨none, true⟩))) :=
  ⟨⟨by decide, by decide⟩,
    c6_body_excerpt "n/f.md" (some ⟨none, true⟩) "hi\n#ab cd" 1 0 "#ab cd".toList
      (by decide) (by decide) (by decide)⟩

/-! ### Claim C10: slash handling in a line's inline tags -/

theorem wordRun_take : ∀ s : List Char, ∀ c ∈ s.take (wordRun s), isWordChar c = true
  | [], c => by simp
  | x :: xs, c => by
    by_cases hx : isWordChar x
    · simp only [wordRun, hx, if_true, List.take_succ_cons, List.mem_cons]
      rintro (rfl | h)
      · exact hx
      · exact wordRun_take xs c h
    · simp only [wordRun, hx, Bool.false_eq_true, if_false, List.take_zero]
      intro h
      simp at h

theorem lRun_take : ∀ s : List Char, ∀ c ∈ s.take (lRun s), isLChar c = true
  | [], c => by simp
  | x :: xs, c => by
    by_cases hx : isLChar x
    · simp only [lRun, hx, if_true, List.take_succ_cons, List.mem_cons]
      rintro (rfl | h)
      · exact hx
      · exact lRun_take xs c h
    · simp only [lRun, hx, Bool.false_eq_true, if_false, List.take_zero]
      intro h
      simp at h

theorem bodyLen_chars {s : List Char} {n : Nat} (h : bodyLen s = some n) :
    ∀ c ∈ s.take n, isWordChar c = true ∨ isLChar c = true := by
  intro c hc
  unfold bodyLen at h
  dsimp only at h
  cases hh : (s.drop (wordRun s)).head? with
  | some c0 =>
    rw [hh] at h
    dsimp only at h
    by_cases hl : isLChar c0
    · rw [if_pos hl] at h
      have hn : n = wordRun s + lRun (s.drop (wordRun s)) +
          wordRun ((s.drop (wordRun s)).drop (lRun (s.drop (wordRun s)))) :=
        (Option.some.inj h).symm
      subst hn
      rw [List.take_add, List.take_add] at hc
      rcases List.mem_append.mp hc with hc1 | hc2
      · rcases List.mem_append.mp hc1 with hc3 | hc4
        · exact Or.inl (wordRun_take s c hc3)
        · exact Or.inr (lRun_take _ c hc4)
      · have edrop : List.drop (wordRun s + lRun (List.drop (wordRun s) s)) s
            = List.drop (lRun (List.drop (wordRun s) s)) (List.drop (wordRun s) s) := by
          rw [List.drop_drop]
        rw [edrop] at hc2
        exact Or.inl (wordRun_take _ c hc2)
    · rw [if_neg hl] at h
      by_cases ha : (s.take (wordRun s)).any (fun x => x.isAlpha || x = '_')
      · rw [if_pos ha] at h
        have hn : n = wordRun s := (Option.some.inj h).symm
        subst hn
        exact Or.inl (wordRun_take s c hc)
      · rw [if_neg ha] at h
        cases h
  | none =>
    rw [hh] at h
    dsimp only at h
    by_cases ha : (s.take (wordRun s)).any (fun x => x.isAlpha || x = '_')
    · rw [if_pos ha] at h
      have hn : n = wordRun s := (Option.some.inj h).symm
      subst hn
      exact Or.inl (wordRun_take s c hc)
    · rw [if_neg ha] at h
      cases h

theorem matchAllGo_chars : ∀ (fuel : Nat) (prev : Option Char) (s : List Char),
    ∀ x ∈ matchAllGo fuel prev s, ∀ c ∈ x,
    c = '#' ∨ isWordChar c = true ∨ isLChar c = true := by
  intro fuel
  induction fuel with
  | zero =>
    intro prev s x hx
    simp [matchAllGo] at hx
  | succ N ih =>
    intro prev s x hx
    cases s with
    | nil => simp [matchAllGo] at hx
    | cons ch cs =>
      rw [matchAllGo] at hx
      by_cases hP : (prevOk prev && ch = '#') = true
      · rw [if_pos hP] at hx
        cases hb : bodyLen cs with
        | some n =>
          rw [hb] at hx
          rcases List.mem_cons.mp hx with rfl | hx2
          · intro c hc
            rcases List.mem_cons.mp hc with rfl | hc2
            · exact Or.inl rfl
            · exact Or.inr (bodyLen_chars hb c hc2)
          · intro c hc
            exact ih _ _ x hx2 c hc
        | none =>
          rw [hb] at hx
          intro c hc
          exact ih _ _ x hx c hc
      · rw [if_neg hP] at hx
        intro c hc
        exact ih _ _ x hx c hc

theorem matchAllTag_chars {para : List Char} {x : List Char} (hx : x ∈ matchAllTag para) :
    ∀ c ∈ x, c = '#' ∨ isWordChar c = true ∨ isLChar c = true :=
  matchAllGo_chars para.length none para x hx

theorem matchAllTag_no_comma {para : List Char} {x : List Char}
    (hx : x ∈ matchAllTag para) : ',' ∉ x := by
  intro hc
  rcases matchAllTag_chars hx ',' hc with h | h | h
  · exact absurd h (by decide)
  · exact absurd h (by decide)
  · exact absurd h (by decide)

theorem joinComma_cons {x : List Char} {xs : List (List Char)} (h : xs ≠ []) :
    joinComma (x :: xs) = x ++ ',' :: joinComma xs := by
  cases xs with
  | nil => exact absurd rfl h
  | cons y ys => rfl

theorem splitOnCh_no_sep {sep : Char} : ∀ {x : List Char}, sep ∉ x →
    splitOnCh sep x = [x]
  | [], _ => rfl
  | c :: cs, h => by
    have hc : ¬ (c = sep) := fun he => h (he ▸ List.mem_cons_self c cs)
    have ih : splitOnCh sep cs = [cs] :=
      splitOnCh_no_sep (fun hm => h (List.mem_cons_of_mem _ hm))
    simp only [splitOnCh, ih]
    rw [if_neg hc]

theorem splitOnCh_append_sep {sep : Char} : ∀ {u : List Char} (v : List Char), sep ∉ u →
    splitOnCh sep (u ++ sep :: v) = u :: splitOnCh sep v
  | [], v, _ => by
    simp only [List.nil_append, splitOnCh]
    cases h : splitOnCh sep v with
    | nil => exact absurd h (splitOnCh_ne_nil sep v)
    | cons hd tl => simp
  | c :: u', v, h => by
    have hc : ¬ (c = sep) := fun he => h (he ▸ List.mem_cons_self c u')
    have ih : splitOnCh sep (u' ++ sep :: v) = u' :: splitOnCh sep v :=
      splitOnCh_append_sep v (fun hm => h (List.mem_cons_of_mem _ hm))
    show splitOnCh sep (c :: (u' ++ sep :: v)) = (c :: u') :: splitOnCh sep v
    simp only [splitOnCh, ih]
    rw [if_neg hc]

theorem splitComma_joinComma : ∀ ms : List (List Char), ms ≠ [] →
    (∀ x ∈ ms, ',' ∉ x) → splitOnCh ',' (joinComma ms) = ms
  | [], h, _ => absurd rfl h
  | [x], _, hx => by
    show splitOnCh ',' x = [x]
    exact splitOnCh_no_sep (hx x (List.mem_cons_self _ _))
  | x :: y :: ys, _, hx => by
    rw [joinComma_cons (by simp)]
    rw [splitOnCh_append_sep _ (hx x (List.mem_cons_self _ _))]
    rw [splitComma_joinComma (y :: ys) (by simp)
      (fun z hz => hx z (List.mem_cons_of_mem _ hz))]

theorem replFirstSlash_skip : ∀ {u : List Char} (v : List Char), '/' ∉ u →
    replFirstSlash (u ++ v) = u ++ replFirstSlash v
  | [], v, _ => rfl
  | c :: u', v, h => by
    have hc : ¬ (c = '/') := fun he => h (he ▸ List.mem_cons_self c u')
    show replFirstSlash (c :: (u' ++ v)) = c :: (u' ++ replFirstSlash v)
    simp only [replFirstSlash]
    rw [if_neg hc, replFirstSlash_skip v (fun hm => h (List.mem_cons_of_mem _ hm))]

theorem replFirstSlash_hit {u : List Char} (v : List Char) (h : '/' ∉ u) :
    replFirstSlash (u ++ '/' :: v) = u ++ ',' :: v := by
  rw [replFirstSlash_skip _ h]
  have e : replFirstSlash ('/' :: v) = ',' :: v := by
    simp [replFirstSlash]
  rw [e]

theorem replFirst_join (a b : List Char) (post : List (List Char)) (ha : '/' ∉ a) :
    ∀ pre : List (List Char), (∀ x ∈ pre, '/' ∉ x) →
    replFirstSlash (joinComma (pre ++ ('#' :: (a ++ '/' :: b)) :: post)) =
      joinComma (pre ++ ('#' :: a) :: b :: post)
  | [], _ => by
    have hno : '/' ∉ ('#' :: a) := by
      intro hm
      rcases List.mem_cons.mp hm with he | hm2
      · exact absurd he (by decide)
      · exact ha hm2
    simp only [List.nil_append]
    cases post with
    | nil =>
      show replFirstSlash ('#' :: (a ++ '/' :: b)) = joinComma [('#' :: a), b]
      have e : ('#' :: (a ++ '/' :: b)) = ('#' :: a) ++ '/' :: b := by simp
      rw [e, replFirstSlash_hit b hno]
      rfl
    | cons p ps =>
      rw [joinComma_cons (show (p :: ps : List (List Char)) ≠ [] by simp)]
      rw [joinComma_cons (show (b :: p :: ps : List (List Char)) ≠ [] by simp)]
      rw [joinComma_cons (show (p :: ps : List (List Char)) ≠ [] by simp)]
      have e : ('#' :: (a ++ '/' :: b)) ++ ',' :: joinComma (p :: ps)
          = ('#' :: a) ++ '/' :: (b ++ ',' :: joinComma (p :: ps)) := by simp
      rw [e, replFirstSlash_hit _ hno]
  | p :: pre', hpre => by
    have hp : '/' ∉ p := hpre p (List.mem_cons_self _ _)
    have hpre' : ∀ x ∈ pre', '/' ∉ x := fun x hx => hpre x (List.mem_cons_of_mem _ hx)
    simp only [List.cons_append]
    rw [joinComma_cons
      (show (pre' ++ ('#' :: (a ++ '/' :: b)) :: post : List (List Char)) ≠ [] by simp)]
    rw [joinComma_cons
      (show (pre' ++ ('#' :: a) :: b :: post : List (List Char)) ≠ [] by simp)]
    rw [replFirstSlash_skip _ hp]
    have estep : replFirstSlash (',' :: joinComma (pre' ++ ('#' :: (a ++ '/' :: b)) :: post))
        = ',' :: replFirstSlash (joinComma (pre' ++ ('#' :: (a ++ '/' :: b)) :: post)) := by
      simp only [replFirstSlash]
      rw [if_neg (by decide)]
    rw [estep, replFirst_join a b post ha pre' hpre']

theorem mem_map_mk {x : List Char} {L : List (List Char)} :
    String.mk x ∈ L.map String.mk ↔ x ∈ L := by
  constructor
  · intro h
    rcases List.mem_map.mp h with ⟨y, hy, he⟩
    have he2 : y = x := by injection he
    exact he2 ▸ hy
  · intro h
    exact List.mem_map_of_mem _ h

/-- C10: a line's inline tags are the regex matches joined with commas
with only the first slash replaced by a comma before splitting.  When the
first slash of the joined string sits in a match of the form `#a/b`
(earlier matches slash-free), the split yields `#a` and `b` in place of
that match, while later matches keep their slashes; consequently the
stored tag list contains `#a` and `b`, not `#a/b` (when no later match or
header tag equals it), and every later match verbatim. -/
theorem c10_slash (para : List Char) (a b : List Char) (pre post : List (List Char))
    (hts : List String)
    (hm : matchAllTag para = pre ++ ('#' :: (a ++ '/' :: b)) :: post)
    (hpre : ∀ x ∈ pre, '/' ∉ x)
    (ha : '/' ∉ a) (hb : '/' ∉ b)
    (hpost : ('#' :: (a ++ '/' :: b)) ∉ post)
    (hhts : String.mk ('#' :: (a ++ '/' :: b)) ∉ hts) :
    lineTagsRaw para = pre ++ ('#' :: a) :: b :: post
    ∧ String.mk ('#' :: a) ∈ storedLineTags para hts
    ∧ String.mk b ∈ storedLineTags para hts
    ∧ String.mk ('#' :: (a ++ '/' :: b)) ∉ storedLineTags para hts
    ∧ (∀ x ∈ post, String.mk x ∈ storedLineTags para hts) := by
  have hmem_m : ('#' :: (a ++ '/' :: b)) ∈ matchAllTag para := by
    rw [hm]
    exact List.mem_append_right _ (List.mem_cons_self _ _)
  have hcm : ',' ∉ ('#' :: (a ++ '/' :: b)) := matchAllTag_no_comma hmem_m
  have hc_a : ',' ∉ ('#' :: a) := by
    intro hcc
    apply hcm
    rcases List.mem_cons.mp hcc with he | h2
    · exact he ▸ List.mem_cons_self _ _
    · exact List.mem_cons_of_mem _ (List.mem_append_left _ h2)
  have hc_b : ',' ∉ b := by
    intro hcc
    exact hcm (List.mem_cons_of_mem _
      (List.mem_append_right _ (List.mem_cons_of_mem _ hcc)))
  have hcpre : ∀ x ∈ pre, ',' ∉ x := fun x hx =>
    matchAllTag_no_comma (by rw [hm]; exact List.mem_append_left _ hx)
  have hcpost : ∀ x ∈ post, ',' ∉ x := fun x hx =>
    matchAllTag_no_comma
      (by rw [hm]; exact List.mem_append_right _ (List.mem_cons_of_mem _ hx))
  have heq : lineTagsRaw para = pre ++ ('#' :: a) :: b :: post := by
    unfold lineTagsRaw
    rw [hm, replFirst_join a b post ha pre hpre]
    apply splitComma_joinComma
    · simp
    · intro x hx
      rcases List.mem_append.mp hx with h1 | h2
      · exact hcpre x h1
      · rcases List.mem_cons.mp h2 with rfl | h3
        · exact hc_a
        · rcases List.mem_cons.mp h3 with rfl | h4
          · exact hc_b
          · exact hcpost x h4
  have hmemstored : ∀ y : String, y ∈ storedLineTags para hts ↔
      (y ∈ (lineTagsRaw para).map String.mk ∨ y ∈ hts) := by
    intro y
    unfold storedLineTags
    rw [show jsDedupe (jsSortStr ((lineTagsRaw para).map String.mk ++ hts))
      = dedupSort ((lineTagsRaw para).map String.mk ++ hts) from rfl]
    rw [mem_dedupSort]
    exact List.mem_append
  refine ⟨heq, ?_, ?_, ?_, ?_⟩
  · rw [hmemstored]
    left
    rw [heq]
    exact mem_map_mk.mpr (List.mem_append_right _ (List.mem_cons_self _ _))
  · rw [hmemstored]
    left
    rw [heq]
    exact mem_map_mk.mpr
      (List.mem_append_right _ (List.mem_cons_of_mem _ (List.mem_cons_self _ _)))
  · rw [hmemstored]
    rintro (h1 | h2)
    · rw [heq] at h1
      have h1m := mem_map_mk.mp h1
      have hslash : '/' ∈ ('#' :: (a ++ '/' :: b)) := by simp
      rcases List.mem_append.mp h1m with hp | hq
      · exact (hpre _ hp) hslash
      · rcases List.mem_cons.mp hq with he | hq2
        · have h3 : '/' ∈ ('#' :: a) := he ▸ hslash
          rcases List.mem_cons.mp h3 with he2 | h4
          · exact absurd he2 (by decide)
          · exact ha h4
        · rcases List.mem_cons.mp hq2 with he | hq3
          · exact hb (he ▸ hslash)
          · exact hpost hq3
    · exact hhts h2
  · intro x hx
    rw [hmemstored]
    left
    rw [heq]
    exact mem_map_mk.mpr
      (List.mem_append_right _ (List.mem_cons_of_mem _ (List.mem_cons_of_mem _ hx)))

theorem c10_slash_witness :
    lineTagsRaw "#x/y #p/q".toList = [] ++ ('#' :: ['x']) :: ['y'] :: [['#', 'p', '/', 'q']]
    ∧ String.mk ('#' :: ['x']) ∈ storedLineTags "#x/y #p/q".toList []
    ∧ String.mk ['y'] ∈ storedLineTags "#x/y #p/q".toList []
    ∧ String.mk ('#' :: (['x'] ++ '/' :: ['y'])) ∉ storedLineTags "#x/y #p/q".toList []
    ∧ (∀ x ∈ [['#', 'p', '/', 'q']], String.mk x ∈ storedLineTags "#x/y #p/q".toList []) :=
  c10_slash "#x/y #p/q".toList ['x'] ['y'] [] [['#', 'p', '/', 'q']] []
    (by decide) (by decide) (by decide) (by decide) (by decide) (by decide)
